import Mathlib

/-
Verification of the command-protocol engine in
src/RPi/ResistorSortUI/ResistorSorter.py.

Python strings / byte strings are modelled as lists of code points
(List Nat); indexing a byte string yields the numeric byte value and
slicing is total, exactly as in Python.  The serial port is modelled by
the data `fetchCmd` observes: the number of waiting bytes and the raw
terminated line that `port.readline()` would return.
-/

/-- A Python string / byte string: its sequence of code points. -/
abbrev Str := List Nat

/-- The Command class: `cmd` holds the 3-character code, `args` the
argument strings. -/
structure Command where
  cmd : Str
  args : List Str
  deriving DecidableEq, Repr

/-- Python `",".join(args)`: joins with the comma code point 44. -/
def joinComma : List Str → Str
  | [] => []
  | [a] => a
  | a :: b :: rest => a ++ 44 :: joinComma (b :: rest)

/-- Python `s.split(',')`: splits on 44; the split of the empty string is
`[""]`, matching Python. -/
def splitComma : Str → List Str
  | [] => [[]]
  | c :: rest =>
    if c = 44 then [] :: splitComma rest
    else
      match splitComma rest with
      | [] => [[c]]
      | h :: t => (c :: h) :: t

/-- The body string built inside `Command.send`:
`output = self.cmd + ";" + ",".join(self.args)` (59 is the semicolon). -/
def sendBody (c : Command) : Str := c.cmd ++ 59 :: joinComma c.args

/-- `Command.send`: prepends `chr(len(output))` (the verification byte)
to the body.  `bytes(output)` and `port.write` transmit these code
points one byte per character, so this list is exactly the byte
sequence written to the transport. -/
def Command.send (c : Command) : Str := (sendBody c).length :: sendBody c

/-- `Command.parse`: drops the verification byte, takes the 3-character
code, drops the code and the semicolon, and comma-splits a non-empty
remainder.  All operations are Python slices, which are total. -/
def Command.parse (inputStr : Str) : Command :=
  let workingStr := inputStr.drop 1
  let cmd := workingStr.take 3
  let rest := workingStr.drop 4
  { cmd := cmd, args := if rest.length > 0 then splitComma rest else [] }

/-- Python `l[:-2]` for a sequence of length ≥ 0: everything but the
last two elements (the whole-line strip `nextLine = nextLine[:-2]`). -/
def stripTwo (l : Str) : Str := l.take (l.length - 2)

/-- The observable outcome of one `fetchCmd` call.  `noData` and
`integrityError` both make `fetchCmd` return the empty string (the
latter after printing the verification-byte error); `indexError` and
`unicodeError` are raised exceptions; `ok s` returns the decoded
string `s`. -/
inductive FetchResult where
  | noData
  | indexError
  | unicodeError
  | integrityError (received expected : Nat)
  | ok (s : Str)
  deriving DecidableEq, Repr

/-- `fetchCmd`, one call.  The `while True:` loop body ends in an
unconditional `break`, so the loop runs exactly once: if no bytes are
waiting it falls through and returns `output = ""`.  Otherwise it reads
the line, strips the two terminator bytes, and compares `nextLine[0]`
(raising IndexError on an empty remainder) with `len(nextLine)` — the
length of the whole stripped line, verification byte included. -/
def fetchCmd (inWaiting : Nat) (nextLine : Str) : FetchResult :=
  if inWaiting > 0 then
    let stripped := stripTwo nextLine
    match stripped.head? with
    | none => .indexError
    | some v =>
      if v ≠ stripped.length then .integrityError v stripped.length
      else if stripped.all (fun b => b < 128) then .ok stripped
      else .unicodeError
  else .noData

/-- The value the `fetchCmd` call returns to its caller (`none` when an
exception propagates instead). -/
def returnedOutput : FetchResult → Option Str
  | .noData => some []
  | .integrityError _ _ => some []
  | .ok s => some s
  | .indexError => none
  | .unicodeError => none

/-- `waitFor(command)` over a finite trace of strings handed back by
`fetchCmd`: parse each, return the first whose code matches, and record
one (received, expected) warning per earlier non-match.  `none` means
the loop is still waiting after consuming the whole trace. -/
def waitFor (command : Str) : List Str → Option (Command × List (Str × Str))
  | [] => none
  | s :: rest =>
    let c := Command.parse s
    if c.cmd = command then some (c, [])
    else
      match waitFor command rest with
      | none => none
      | some (r, ws) => some (r, (c.cmd, command) :: ws)

/-- `sendRdy`: the bytes written for the standard RDY command. -/
def sendRdy : Str := Command.send { cmd := [82, 68, 89], args := [] }

/-- `sendAck`: the bytes written for the standard ACK command. -/
def sendAck : Str := Command.send { cmd := [65, 67, 75], args := [] }

/-- `sendNxt`: the bytes written for the standard NXT command. -/
def sendNxt : Str := Command.send { cmd := [78, 88, 84], args := [] }

/-- `sendEnd`: the bytes written for the standard END command. -/
def sendEnd : Str := Command.send { cmd := [69, 78, 68], args := [] }

/-- `sendError(err)`: the bytes written for an ERR command with one
argument. -/
def sendError (err : Str) : Str := Command.send { cmd := [69, 82, 82], args := [err] }

/-- `sendDat(data)`: the bytes written for a DAT command with one
argument. -/
def sendDat (data : Str) : Str := Command.send { cmd := [68, 65, 84], args := [data] }

/-
Aliasing model for the `args` attribute.  Python list objects live on a
heap; `Command.args = []` at class level allocates one list (cell 0)
shared by every instance that has not rebound `self.args`.  A heap is a
list of list objects (cell i holds the i-th allocated list's contents);
an object refers to its args list by cell index.
-/

/-- A Command instance as the interpreter sees it: the (immutable)
string bound to `cmd` and the heap cell its `args` attribute refers
to.  A fresh `Command()` refers to cell 0, the class-level `args = []`
list. -/
structure CmdObj where
  cmd : Str
  argsRef : Nat
  deriving DecidableEq, Repr

/-- Interpreter state: the list heap plus the Command instances created
so far.  Cell 0 is the class attribute `Command.args`. -/
structure St where
  heap : List (List Str)
  objs : List CmdObj
  deriving Repr

/-- State at module load: the class body has allocated the one shared
empty list, and no instance exists yet. -/
def initSt : St := { heap := [[]], objs := [] }

/-- The operations of the source that touch a Command's `args`:
constructing an instance, `parse` (which rebinds `self.args` to a fresh
list), a helper's `x.args = <literal>` assignment (also a fresh list),
and `send` (which only reads `self.args`). -/
inductive Op where
  | newCmd
  | parseOp (i : Nat) (s : Str)
  | setArgsOp (i : Nat) (a : List Str)
  | sendOp (i : Nat)

/-- One step of the interpreter.  `parseOp` and `setArgsOp` allocate a
fresh cell at the end of the heap and point instance `i` at it —
rebinding, never writing through the old reference; `sendOp` reads
`self.args` and the port, leaving heap and instances unchanged;
operations on a nonexistent instance are no-ops. -/
def step (st : St) : Op → St
  | .newCmd => { st with objs := st.objs ++ [{ cmd := [], argsRef := 0 }] }
  | .parseOp i s =>
    match st.objs.get? i with
    | none => st
    | some _ =>
      let c := Command.parse s
      { heap := st.heap ++ [c.args],
        objs := st.objs.set i { cmd := c.cmd, argsRef := st.heap.length } }
  | .setArgsOp i a =>
    match st.objs.get? i with
    | none => st
    | some o =>
      { heap := st.heap ++ [a],
        objs := st.objs.set i { cmd := o.cmd, argsRef := st.heap.length } }
  | .sendOp _ => st

/-- Run a sequence of operations from the module-load state. -/
def runOps (ops : List Op) : St := ops.foldl step initSt

/-- Splitting a string free of commas yields that one string. -/
theorem splitComma_no_comma (a : Str) (h : ∀ ch ∈ a, ch ≠ 44) : splitComma a = [a] := by
  induction a with
  | nil => rfl
  | cons c rest ih =>
    have hc : c ≠ 44 := h c (List.mem_cons_self c rest)
    have hr : splitComma rest = [rest] := ih fun ch hm => h ch (List.mem_cons_of_mem c hm)
    simp [splitComma, hc, hr]

/-- Splitting past a comma that follows a comma-free chunk peels off
that chunk. -/
theorem splitComma_append (a t : Str) (h : ∀ ch ∈ a, ch ≠ 44) :
    splitComma (a ++ 44 :: t) = a :: splitComma t := by
  induction a with
  | nil => simp [splitComma]
  | cons c rest ih =>
    have hc : c ≠ 44 := h c (List.mem_cons_self c rest)
    have hr := ih fun ch hm => h ch (List.mem_cons_of_mem c hm)
    simp [splitComma, hc, hr]

/-- A comma-split undoes a comma-join of a non-empty list of comma-free
strings. -/
theorem joinComma_split (args : List Str) (hne : args ≠ [])
    (h : ∀ a ∈ args, ∀ ch ∈ a, ch ≠ 44) : splitComma (joinComma args) = args := by
  induction args with
  | nil => exact absurd rfl hne
  | cons a rest ih =>
    cases rest with
    | nil => exact splitComma_no_comma a (h a (List.mem_cons_self a []))
    | cons b t =>
      have ha : ∀ ch ∈ a, ch ≠ 44 := h a (List.mem_cons_self a (b :: t))
      have hrest := ih (by simp) fun x hx ch hch => h x (List.mem_cons_of_mem a hx) ch hch
      rw [joinComma, splitComma_append a _ ha, hrest]

/-- The joined argument string is empty only for no arguments or one
empty argument. -/
theorem joinComma_ne_nil (args : List Str) (h1 : args ≠ []) (h2 : args ≠ [[]]) :
    joinComma args ≠ [] := by
  cases args with
  | nil => exact absurd rfl h1
  | cons a rest =>
    cases rest with
    | nil =>
      have : a ≠ [] := fun h => h2 (by rw [h])
      simpa [joinComma] using this
    | cons b t => simp [joinComma]

/-- C1: the claim says the receive-side check compares the verification
byte `v` with `n = length(rawLine[1:])`, the body length, and that
every frame produced by `Command.send` (whose byte equals its body
length) passes.  The code instead compares `v` with the length of the
whole stripped line, body plus verification byte: the frame
`Command.send` produces for RDY (byte 4, body "RDY;") is rejected with
received 4, expected 5, while a frame whose leading byte is 5 — which
the claim says must be rejected — is accepted. -/
theorem fetchCmd_off_by_one_check :
    fetchCmd 1 (Command.send { cmd := [82, 68, 89], args := [] } ++ [13, 10]) =
      .integrityError 4 5
    ∧ fetchCmd 1 ([5, 82, 68, 89, 59] ++ [13, 10]) = .ok [5, 82, 68, 89, 59] := by
  decide

/-- C2: round trip — for a Command with a 3-character code, ASCII
arguments free of commas and semicolons, and body length at most 255,
parsing the string `Command.send` constructs returns the same code and
the same arguments, except that no arguments and one empty argument
both come back as no arguments. -/
theorem parse_send_roundTrip (c : Command) (h3 : c.cmd.length = 3)
    (hargs : ∀ a ∈ c.args, ∀ ch ∈ a, ch < 128 ∧ ch ≠ 44 ∧ ch ≠ 59)
    (hlen : (sendBody c).length ≤ 255) :
    Command.parse (Command.send c) =
      { cmd := c.cmd, args := if c.args = [] ∨ c.args = [[]] then [] else c.args } := by
  obtain ⟨cs, args⟩ := c
  obtain ⟨x, y, z, rfl⟩ := List.length_eq_three.mp h3
  have hdrop : Command.parse (Command.send ⟨[x, y, z], args⟩) =
      { cmd := [x, y, z],
        args := if (joinComma args).length > 0 then splitComma (joinComma args) else [] } := by
    simp [Command.parse, Command.send, sendBody]
  rw [hdrop]
  by_cases hnil : args = [] ∨ args = [[]]
  · rcases hnil with h | h <;> subst h <;> simp [joinComma]
  · push_neg at hnil
    have hj : joinComma args ≠ [] := joinComma_ne_nil args hnil.1 hnil.2
    have hpos : (joinComma args).length > 0 := List.length_pos.mpr hj
    have hsplit : splitComma (joinComma args) = args :=
      joinComma_split args hnil.1 fun a ha ch hch => ((hargs a ha ch hch).2).1
    simp [hpos, hsplit, hnil.1, hnil.2]

/-- Witness for the round trip at the concrete Command RDY with the
single argument "x". -/
theorem parse_send_roundTrip_wit :
    Command.parse (Command.send { cmd := [82, 68, 89], args := [[120]] }) =
      { cmd := [82, 68, 89], args := [[120]] } := by
  have h := parse_send_roundTrip { cmd := [82, 68, 89], args := [[120]] }
    (by decide) (by decide) (by decide)
  simpa using h

/-- C3: the claim says fetchCmd blocks until a byte and then a full
line is available.  In the code the `while True:` loop body ends in an
unconditional `break`, so when no bytes are waiting the call falls
straight through and returns the empty string — whatever line might
arrive later — instead of blocking for a frame. -/
theorem fetchCmd_returns_without_waiting (line : Str) :
    fetchCmd 0 line = .noData ∧ returnedOutput (fetchCmd 0 line) = some [] := by
  simp [fetchCmd, returnedOutput]

/-- C4 counterexample: the bytes `Command.send` writes for the RDY
command are exactly the verification byte and the body, and are not
the claimed verification byte, body and carriage-return/newline
terminator. -/
theorem send_no_terminator_cex :
    Command.send { cmd := [82, 68, 89], args := [] } = [4, 82, 68, 89, 59]
    ∧ Command.send { cmd := [82, 68, 89], args := [] } ≠ [4, 82, 68, 89, 59] ++ [13, 10] := by
  decide

/-- C4 amended: `Command.send` writes exactly the verification byte
followed by the body and appends no line terminator; the receiver's
strip of exactly two trailing bytes recovers a line unchanged only
when the sender of that line (the device side) appends the two-byte
terminator itself. -/
theorem send_writes_exact_frame (c : Command) (line : Str) :
    Command.send c = (sendBody c).length :: sendBody c
    ∧ (Command.send c).length = (sendBody c).length + 1
    ∧ stripTwo (line ++ [13, 10]) = line := by
  refine ⟨rfl, by simp [Command.send], ?_⟩
  simp [stripTwo]

/-- C7: the body for RDY with no arguments is "RDY;" with verification
byte 4, and the body for ERR with the single argument "bad_sensor" is
"ERR;bad_sensor" with verification byte 14. -/
theorem encode_examples :
    sendBody { cmd := [82, 68, 89], args := [] } = [82, 68, 89, 59]
    ∧ sendRdy = 4 :: [82, 68, 89, 59]
    ∧ sendError [98, 97, 100, 95, 115, 101, 110, 115, 111, 114] =
        14 :: [69, 82, 82, 59, 98, 97, 100, 95, 115, 101, 110, 115, 111, 114] := by
  decide

/-- C5: waitFor returns the first incoming command whose code matches,
emitting exactly one (received, expected) warning for each earlier
non-matching command and discarding it; in particular on the trace
NXT, ACK, RDY, waiting for RDY warns once about NXT, once about ACK,
and returns the RDY command. -/
theorem waitFor_first_match :
    (∀ (command : Str) (pre : List Str) (s : Str) (post : List Str),
        (∀ t ∈ pre, (Command.parse t).cmd ≠ command) →
        (Command.parse s).cmd = command →
        waitFor command (pre ++ s :: post) =
          some (Command.parse s, pre.map fun t => ((Command.parse t).cmd, command)))
    ∧ waitFor [82, 68, 89] [sendNxt, sendAck, sendRdy] =
        some ({ cmd := [82, 68, 89], args := [] },
          [([78, 88, 84], [82, 68, 89]), ([65, 67, 75], [82, 68, 89])]) := by
  constructor
  · intro command pre s post hpre hs
    induction pre with
    | nil => simp [waitFor, hs]
    | cons t pre2 ih =>
      have ht : (Command.parse t).cmd ≠ command := hpre t (List.mem_cons_self t pre2)
      have ih2 := ih fun u hu => hpre u (List.mem_cons_of_mem t hu)
      simp [waitFor, ht, ih2]
  · decide

/-- Witness for the first-match property of waitFor: one discarded NXT
before the matching RDY. -/
theorem waitFor_first_match_wit :
    waitFor [82, 68, 89] ([sendNxt] ++ sendRdy :: []) =
      some (Command.parse sendRdy, [([78, 88, 84], [82, 68, 89])]) :=
  waitFor_first_match.1 [82, 68, 89] [sendNxt] sendRdy [] (by decide) (by decide)

/-- C6: waitFor never hands back a command whose code differs from the
expected one, and a trace in which no command carries the expected
code leaves it still waiting, however long the trace — it loops rather
than returning a default or a non-matching command. -/
theorem waitFor_never_wrong (command : Str) (inputs : List Str) :
    (∀ c ws, waitFor command inputs = some (c, ws) → c.cmd = command)
    ∧ ((∀ s ∈ inputs, (Command.parse s).cmd ≠ command) → waitFor command inputs = none) := by
  induction inputs with
  | nil =>
    refine ⟨fun c ws h => ?_, fun _ => rfl⟩
    simp [waitFor] at h
  | cons s rest ih =>
    constructor
    · intro c ws h
      by_cases hs : (Command.parse s).cmd = command
      · simp [waitFor, hs] at h
        rw [← h.1]
        exact hs
      · simp [waitFor, hs] at h
        cases hr : waitFor command rest with
        | none => rw [hr] at h; simp at h
        | some p =>
          obtain ⟨r, ws2⟩ := p
          rw [hr] at h
          simp at h
          rw [← h.1]
          exact ih.1 r ws2 hr
    · intro hall
      have hs : (Command.parse s).cmd ≠ command := hall s (List.mem_cons_self s rest)
      have hrest := ih.2 fun t ht => hall t (List.mem_cons_of_mem s ht)
      simp [waitFor, hs, hrest]

/-- Witness for waitFor on a matchless trace: waiting for RDY when only
NXT arrives returns nothing. -/
theorem waitFor_never_wrong_wit : waitFor [82, 68, 89] [sendNxt] = none :=
  (waitFor_never_wrong [82, 68, 89] [sendNxt]).2 (by decide)

/-- C8: when the raw line holds at most two bytes, stripping the
two-byte terminator leaves nothing, and the verification step's
`nextLine[0]` indexes an empty sequence: fetchCmd raises IndexError
rather than reporting an integrity error or returning. -/
theorem fetchCmd_short_line_raises (w : Nat) (line : Str)
    (hw : 0 < w) (hl : line.length ≤ 2) : fetchCmd w line = .indexError := by
  have h0 : line.length - 2 = 0 := Nat.sub_eq_zero_of_le hl
  simp [fetchCmd, stripTwo, h0, hw]

/-- Witness: a line consisting only of the terminator raises IndexError. -/
theorem fetchCmd_short_line_raises_wit : fetchCmd 1 [13, 10] = .indexError :=
  fetchCmd_short_line_raises 1 [13, 10] (by decide) (by decide)

/-- C9: Command.parse is total.  On every input it sets `cmd` to the
characters at positions 1 through 3 (fewer when the string ends
sooner), sets `args` to the comma-split of everything from position 5
of the raw input (position 4 of the de-byted string) exactly when that
remainder is non-empty and to the empty list otherwise, and on the
empty string returns the empty code and no arguments without failing. -/
theorem parse_is_total (s : Str) :
    (Command.parse s).cmd = (s.drop 1).take 3
    ∧ (Command.parse s).args =
        (if (s.drop 5).length > 0 then splitComma (s.drop 5) else [])
    ∧ (∀ i, ((Command.parse s).cmd).get? i = if i < 3 then s.get? (i + 1) else none)
    ∧ Command.parse [] = { cmd := [], args := [] } := by
  have hdrop : (s.drop 1).drop 4 = s.drop 5 := by
    rw [List.drop_drop]
  refine ⟨rfl, ?_, ?_, rfl⟩
  · simp [Command.parse, hdrop]
  · intro i
    by_cases hi : i < 3
    · simp only [Command.parse, hi, if_pos]
      rw [List.get?_take hi, List.get?_drop]
      congr 1
      omega
    · simp only [Command.parse, hi, if_neg, not_false_iff]
      apply List.get?_eq_none.mpr
      have h1 : ((s.drop 1).take 3).length ≤ 3 := by
        simp [List.length_take]
      omega

/-- No step of the interpreter changes the contents of an already
allocated list cell: `send` only reads, and `parse` and the helper
assignments bind a freshly allocated list instead of writing through
the old reference. -/
theorem step_preserves_cells (st : St) (op : Op) (i : Nat) (hi : i < st.heap.length) :
    (step st op).heap.get? i = st.heap.get? i := by
  cases op with
  | newCmd => rfl
  | parseOp j s =>
    cases h : st.objs[j]? with
    | none => simp [step, h]
    | some o => simp [step, h, List.getElem?_append_left hi]
  | setArgsOp j a =>
    cases h : st.objs[j]? with
    | none => simp [step, h]
    | some o => simp [step, h, List.getElem?_append_left hi]
  | sendOp j => rfl

/-- C10: across every sequence of Command operations the class-level
default list (heap cell 0) still holds the empty list — no operation
ever mutates an existing args list in place, so instances sharing the
class default never observe another instance's arguments through it. -/
theorem args_default_never_mutated (ops : List Op) :
    (runOps ops).heap.get? 0 = some []
    ∧ (∀ (st : St) (op : Op) (i : Nat), i < st.heap.length →
        (step st op).heap.get? i = st.heap.get? i) := by
  refine ⟨?_, step_preserves_cells⟩
  have key : ∀ (l : List Op) (st : St), st.heap.get? 0 = some [] →
      (l.foldl step st).heap.get? 0 = some [] := by
    intro l
    induction l with
    | nil => exact fun st h => h
    | cons op rest ih =>
      intro st h
      apply ih
      have hne : st.heap.get? 0 ≠ none := by rw [h]; simp
      have hlen : 0 < st.heap.length := by
        by_contra hc
        exact hne (List.get?_eq_none.mpr (by omega))
      rw [step_preserves_cells st op 0 hlen]
      exact h
  exact key ops initSt rfl

/-- Witness: after no operations the class default is still empty, and
one constructor step leaves cell 0 untouched. -/
theorem args_default_never_mutated_wit :
    (runOps []).heap.get? 0 = some []
    ∧ (step initSt Op.newCmd).heap.get? 0 = initSt.heap.get? 0 :=
  ⟨(args_default_never_mutated []).1,
   (args_default_never_mutated []).2 initSt Op.newCmd 0 (by decide)⟩
